import Mathlib

set_option maxRecDepth 200000

/-!
# Verification of the meme-storage ingestion and retrieval pipeline

Shallow embedding of the core of the repository (src/main.py, src/database.py,
src/ml.py): content-addressed deduplication, tag normalization, the media
record repository, the signed-URL gate with its path check, and the tag-based
subset search.  Python strings are modelled over their ASCII fragment through
Lean `Char` lists; the SQLite store is modelled as a list of rows together
with the uniqueness constraint of the `idx_content_hash` index.
-/

namespace MemeBot

/-! ## Generic list and character helpers -/

instance {ε α : Type} [DecidableEq ε] [DecidableEq α] :
    DecidableEq (Except ε α) := fun a b =>
  match a, b with
  | .error x, .error y =>
    if h : x = y then isTrue (by rw [h])
    else isFalse (fun he => h (Except.error.injEq _ _ ▸ he))
  | .ok x, .ok y =>
    if h : x = y then isTrue (by rw [h])
    else isFalse (fun he => h (Except.ok.injEq _ _ ▸ he))
  | .error _, .ok _ => isFalse (fun he => Except.noConfusion he)
  | .ok _, .error _ => isFalse (fun he => Except.noConfusion he)

/-- Split a character list at every occurrence of the separator.  Mirrors
Python `str.split(sep)`: the empty input yields one empty piece. -/
def splitSep (sep : Char) : List Char → List (List Char)
  | [] => [[]]
  | c :: cs =>
    match splitSep sep cs with
    | [] => [[]]
    | p :: ps => if c = sep then [] :: p :: ps else (c :: p) :: ps

/-- Join pieces with a separator, mirroring Python `sep.join(pieces)`. -/
def joinSep (sep : Char) : List (List Char) → List Char
  | [] => []
  | [p] => p
  | p :: ps => p ++ sep :: joinSep sep ps

/-- Helper for `runsBy`: `acc` holds the current run, reversed. -/
def runsByAux (p : Char → Bool) : List Char → List Char → List (List Char)
  | acc, [] => if acc = [] then [] else [acc.reverse]
  | acc, c :: cs =>
    if p c then runsByAux p (c :: acc) cs
    else if acc = [] then runsByAux p [] cs
    else acc.reverse :: runsByAux p [] cs

/-- Maximal runs of characters satisfying `p`, dropping the rest.  Used both
for `str.split()` (whitespace runs removed) and for the `\w{3,}` scanner. -/
def runsBy (p : Char → Bool) (l : List Char) : List (List Char) :=
  runsByAux p [] l

/-- `a` is an initial segment of `b` (Python `str.startswith`). -/
def listLeads : List Char → List Char → Bool
  | [], _ => true
  | _ :: _, [] => false
  | a :: as_, b :: bs => if a = b then listLeads as_ bs else false

/-- Stable insertion of `x` into `l` for the Boolean preorder `le`:
`x` is placed before the first element it relates to. -/
def insSorted (le : α → α → Bool) (x : α) : List α → List α
  | [] => [x]
  | y :: ys => if le x y then x :: y :: ys else y :: insSorted le x ys

/-- Stable insertion sort, the model of Python `sorted` / `list.sort`. -/
def sortBy (le : α → α → Bool) : List α → List α
  | [] => []
  | x :: xs => insSorted le x (sortBy le xs)

/-- Python string comparison: lexicographic on code points. -/
def charListLe : List Char → List Char → Bool
  | [], _ => true
  | _ :: _, [] => false
  | a :: as_, b :: bs =>
    if a.toNat < b.toNat then true
    else if b.toNat < a.toNat then false
    else charListLe as_ bs

def strLe (a b : String) : Bool := charListLe a.data b.data

/-- Python `str.strip()`: remove leading and trailing whitespace. -/
def pyStripC (l : List Char) : List Char :=
  ((l.dropWhile Char.isWhitespace).reverse.dropWhile Char.isWhitespace).reverse

/-! ## Tag extraction (src/main.py lines 159-167, src/ml.py lines 93-100)

The ASCII fragment of the Python character classes: `str.isalnum` becomes
`Char.isAlphanum`, `str.lower` becomes `Char.toLower`, and the regex class
`\w` becomes alphanumeric-or-underscore. -/

def pyIsAlnum (c : Char) : Bool :=
  decide ((65 ≤ c.toNat ∧ c.toNat ≤ 90) ∨ (97 ≤ c.toNat ∧ c.toNat ≤ 122) ∨
    (48 ≤ c.toNat ∧ c.toNat ≤ 57))

def isWordChar (c : Char) : Bool := pyIsAlnum c || decide (c.toNat = 95)

/-- `str.lower` on the basic latin range (the algorithm of `Char.toLower`). -/
def pyLower (c : Char) : Char :=
  if 65 ≤ c.toNat ∧ c.toNat ≤ 90 then Char.ofNat (c.toNat + 32) else c

def lowerC (l : List Char) : List Char := l.map pyLower

/-- The word cleaning step of `save_photo`: keep only alphanumeric
characters, then lowercase. -/
def cleanWord (w : List Char) : List Char := lowerC (w.filter pyIsAlnum)

/-- Caption tags in order of appearance (`save_photo` builds a set; list
membership is the set semantics, duplicates are collapsed on storage):
split on whitespace, strip non-alphanumerics, lowercase, keep length > 2. -/
def captionTagsList (caption : String) : List String :=
  (((runsBy (fun c => !c.isWhitespace) caption.data).map cleanWord).filter
    (fun w => 2 < w.length)).map (fun l => String.mk l)

/-- `get_tags_for_image` word scan over the decoded OCR text
(src/ml.py line 94): maximal `\w` runs of length at least 3, lowercased,
deduplicated, sorted.  The model takes the raw OCR text as input, the
Florence-2 invocation being an external capability. -/
def ocrTagsList (text : String) : List String :=
  sortBy strLe
    ((((runsBy isWordChar text.data).filter (fun w => 3 ≤ w.length)).map
      (fun w => String.mk (lowerC w))).dedup)

/-- `','.join(sorted(list(tags)))`: the stored serialized form of a tag set. -/
def joinTags (tags : List String) : String :=
  String.mk (joinSep ',' ((sortBy strLe tags.dedup).map String.data))

/-- The tag set read back from a stored row (`inline_query` line 217):
split the stored text on commas, strip each piece, drop empties. -/
def parseTags (stored : String) : List String :=
  (((splitSep ',' stored.data).map pyStripC).filter (fun p => p ≠ [])).map
    (fun l => String.mk l)

/-! ## The media record repository (src/database.py)

One row of the `memes` table: `id integer PRIMARY KEY, file_path text NOT
NULL, tags text, content_hash TEXT` with the unique index `idx_content_hash`
on `content_hash`.  The store is the list of rows in rowid order. -/

structure Meme where
  id : Nat
  filePath : String
  tags : String
  contentHash : Option String
deriving DecidableEq

/-- The rowid SQLite assigns to a fresh insert: one more than the maximum. -/
def nextRowId (rows : List Meme) : Nat :=
  (rows.map Meme.id).foldr Nat.max 0 + 1

/-- `insert_meme`: a single atomic INSERT; the unique index on
`content_hash` makes it fail (sqlite3.IntegrityError) whenever a row with
the same non-null hash is already present, leaving the store unchanged. -/
def insert_meme (rows : List Meme) (hash : String) (path : String)
    (tags : String) : Except Unit (Nat × List Meme) :=
  if rows.any (fun r => decide (r.contentHash = some hash)) then .error ()
  else
    let i := nextRowId rows
    .ok (i, rows ++ [⟨i, path, tags, some hash⟩])

/-- `get_all_memes`: SELECT in rowid order. -/
def get_all_memes (rows : List Meme) : List Meme := rows

/-- `get_all_hashes`: the non-null content hashes. -/
def get_all_hashes (rows : List Meme) : List String :=
  rows.filterMap Meme.contentHash

/-- `clear_database`: DELETE FROM memes. -/
def clear_database (_rows : List Meme) : List Meme := []

/-- Modelled from the spec: `replaceTags(fingerprint, tags)` is a wholesale
overwrite of the tag set of the record with that fingerprint.  The function
`update_meme_tags` is called by `retag_all` (src/main.py line 446) but has no
definition in src/src/database.py; following the contract wording it is the
single statement `UPDATE memes SET tags = ? WHERE content_hash = ?`. -/
def update_meme_tags (rows : List Meme) (hash : String) (tagsStr : String) :
    List Meme :=
  rows.map (fun r => if r.contentHash = some hash then
    { r with tags := tagsStr } else r)

/-! ## The ingestion pipeline (src/main.py `save_photo`, lines 128-200)

The persistence-relevant state of one submission: the database rows, the set
of committed files in the originals directory, the scoped temporary file.
The OCR invocation is the external capability `extract_text`; the model
receives its raw text output (empty text models its failure). -/

inductive Reply
  | savedWithTags
  | savedNoTags
  | alreadySaved
deriving DecidableEq

structure SaveResult where
  rows : List Meme
  memeFiles : List String
  /-- the temporary file still exists after the handler returns -/
  tempRemains : Bool
  /-- the temporary file was moved into the originals directory -/
  moved : Bool
  reply : Reply
deriving DecidableEq

/-- The tag set computed by `save_photo`: union of OCR-derived and
caption-derived tags (lines 149-167). -/
def savePhotoTags (ocrText caption : String) : List String :=
  ocrTagsList ocrText ++ captionTagsList caption

/-- `save_photo`, from the point where the bytes are in the temporary file
and hashed: insert the row, and only on success move the temporary file to
`photo_path`; on IntegrityError reply "already saved"; the `finally` block
removes the temporary file whenever it was not moved. -/
def savePhoto (rows : List Meme) (files : List String) (fileName : String)
    (contentHash : String) (ocrText caption : String) : SaveResult :=
  let tags := savePhotoTags ocrText caption
  match insert_meme rows contentHash fileName (joinTags tags) with
  | .ok (_, rows2) =>
      { rows := rows2
        memeFiles := fileName :: files
        tempRemains := false
        moved := true
        reply := if tags = [] then .savedNoTags else .savedWithTags }
  | .error _ =>
      { rows := rows
        memeFiles := files
        tempRemains := false
        moved := false
        reply := .alreadySaved }

/-! ## Reconciliation (src/main.py `rescan`, lines 355-409) -/

/-- One file found under the originals directory, with its content hash
(`_calculate_hash` is a function of the bytes) and the raw OCR text the
external capability produces for it. -/
structure ScanFile where
  name : String
  hash : String
  ocrText : String
deriving DecidableEq

/-- The `rescan` loop over the directory listing: the hash-set snapshot
`existing` is taken once before the loop; a file whose hash is absent from
the snapshot is OCRed and inserted, an IntegrityError being swallowed.
Returns the rows together with `added_count`. -/
def rescanLoop (existing : List String) :
    List Meme → List ScanFile → List Meme × Nat
  | rows, [] => (rows, 0)
  | rows, f :: fs =>
    if f.hash ∈ existing then rescanLoop existing rows fs
    else
      match insert_meme rows f.hash f.name (joinTags (ocrTagsList f.ocrText)) with
      | .ok (_, rows2) =>
          let r := rescanLoop existing rows2 fs
          (r.1, r.2 + 1)
      | .error _ => rescanLoop existing rows fs

/-- `rescan`: snapshot `get_all_hashes`, then process the listing. -/
def rescan (rows : List Meme) (files : List ScanFile) : List Meme × Nat :=
  rescanLoop (get_all_hashes rows) rows files

/-! ## Search (src/main.py `inline_query`, lines 202-224) -/

/-- The query tokens: the query is lowercased, split on whitespace, and each
token stripped (a no-op after `split()`), empties dropped. -/
def queryTokens (query : String) : List String :=
  ((runsBy (fun c => !c.isWhitespace) (lowerC query.data)).map
    (fun l => String.mk (pyStripC l))).filter (fun t => t ≠ "")

/-- A record matches when the query tokens are a subset of its tag set. -/
def memeMatches (qts : List String) (m : Meme) : Bool :=
  qts.all (fun t => (parseTags m.tags).contains t)

/-- Descending comparison on row ids, the key of
`results.sort(key=lambda x: x[0], reverse=True)`. -/
def idGe (a b : Meme) : Bool := decide (b.id ≤ a.id)

/-- `inline_query`: filter (or keep everything when the raw query string is
empty), sort by id descending, truncate to 50. -/
def inlineSearch (query : String) (memes : List Meme) : List Meme :=
  let results :=
    if lowerC query.data ≠ [] then
      memes.filter (memeMatches (queryTokens query))
    else memes
  (sortBy idGe results).take 50

/-! ## Reachable stores (for the stored-tag invariant)

Every path of the program that writes rows: `save_photo`, the `rescan` loop,
`retag_all` (one `update_meme_tags` call per record, tags freshly derived
from OCR), and `clear`.  The quantified strings are the external inputs:
OCR output, captions, identifiers. -/

inductive Reach : List Meme → Prop
  | init : Reach []
  | save (rows : List Meme) (files : List String)
      (fileName contentHash ocrText caption : String) :
      Reach rows →
      Reach (savePhoto rows files fileName contentHash ocrText caption).rows
  | scan (rows : List Meme) (files : List ScanFile) :
      Reach rows → Reach (rescan rows files).1
  | retag (rows : List Meme) (hash ocrText : String) :
      Reach rows →
      Reach (update_meme_tags rows hash (joinTags (ocrTagsList ocrText)))
  | clear (rows : List Meme) : Reach rows → Reach (clear_database rows)

/-! ## The signed-URL gate (src/main.py lines 29-69, 231-237)

Modelled from the spec: the `itsdangerous.URLSafeTimedSerializer` is an
external library, treated per the specification as a capability producing
self-contained tokens "cryptographically bound so that payload and issuance
time cannot be altered without invalidating the signature".  The ideal
tamper-evident scheme below serializes the payload characters (32 bits
each) followed by a 64-bit issuance timestamp, and appends as signature an
exact copy of that body; verification recomputes and compares, so any
altered bit is detected.  (Unforgeability and secrecy of the real HMAC are
not modelled; no claim under audit depends on them.)  `loads` enforces
`0 ≤ now - issuedAt ≤ max_age` exactly as the call site fixes
`max_age=3600`. -/

def natToBits : Nat → Nat → List Bool
  | 0, _ => []
  | k + 1, n => (n % 2 = 1) :: natToBits k (n / 2)

def natOfBits : List Bool → Nat
  | [] => 0
  | b :: bs => (if b then 1 else 0) + 2 * natOfBits bs

def bitsOfChar (c : Char) : List Bool := natToBits 32 c.toNat

def charOfBits (bs : List Bool) : Char := Char.ofNat (natOfBits bs)

def encodeStr (s : String) : List Bool := (s.data.map bitsOfChar).flatten

/-- Decode `k` characters of 32 bits each. -/
def decodeChars : Nat → List Bool → List Char
  | 0, _ => []
  | k + 1, bs => charOfBits (bs.take 32) :: decodeChars k (bs.drop 32)

/-- The token body: payload characters then the 64-bit timestamp. -/
def tokenBody (payload : String) (issuedAt : Nat) : List Bool :=
  encodeStr payload ++ natToBits 64 issuedAt

/-- `signer.dumps(payload)` at time `issuedAt`: body plus its copy. -/
def dumpsTok (payload : String) (issuedAt : Nat) : List Bool :=
  tokenBody payload issuedAt ++ tokenBody payload issuedAt

inductive TokenErr
  | badSignature
  | expired
deriving DecidableEq

/-- `signer.loads(token, max_age=3600)` at time `now`. -/
def loadsTok (token : List Bool) (now : Nat) : Except TokenErr String :=
  let n := token.length
  if n % 2 ≠ 0 then .error .badSignature
  else
    let body := token.take (n / 2)
    let sig := token.drop (n / 2)
    if body ≠ sig then .error .badSignature
    else if body.length < 64 then .error .badSignature
    else if (body.length - 64) % 32 ≠ 0 then .error .badSignature
    else
      let strBits := body.take (body.length - 64)
      let timeBits := body.drop (body.length - 64)
      let issuedAt := natOfBits timeBits
      let payload := String.mk (decodeChars (strBits.length / 32) strBits)
      if issuedAt ≤ now ∧ now - issuedAt ≤ 3600 then .ok payload
      else .error .expired

/-- Flip the bit at position `i`. -/
def flipAt : Nat → List Bool → List Bool
  | _, [] => []
  | 0, b :: bs => (!b) :: bs
  | n + 1, b :: bs => b :: flipAt n bs

/-! ## Path resolution (src/main.py `_get_secure_file_path`, lines 43-59)

POSIX `os.path.abspath` on the already-absolute strings produced by
`os.path.join(base_dir, filename)`: split on `/`, drop empty and `.`
components, let `..` pop (a no-op at the root), rejoin. -/

/-- One `normpath` stack step; the stack is kept reversed. -/
def normFold (stack : List (List Char)) (comp : List Char) :
    List (List Char) :=
  if comp = [] ∨ comp = ['.'] then stack
  else if comp = ['.', '.'] then stack.tail
  else comp :: stack

def absPathC (p : List Char) : List Char :=
  '/' :: joinSep '/' (((splitSep '/' p).foldl normFold []).reverse)

def absPathStr (p : String) : String := String.mk (absPathC p.data)

/-- `os.path.join(base, name)` for an absolute `base` not ending in `/`. -/
def joinPathC (base name : List Char) : List Char :=
  if name.head? = some '/' then name else base ++ '/' :: name

inductive ServeErr
  | invalidToken
  | traversal
  | notFound
deriving DecidableEq

/-- `_get_secure_file_path(token, base_dir)` over a file system modelled as
the list of paths of existing regular files. -/
def getSecureFilePath (fs : List String) (now : Nat) (token : List Bool)
    (baseDir : String) : Except ServeErr String :=
  match loadsTok token now with
  | .error _ => .error .invalidToken
  | .ok filename =>
    let fullPath := String.mk (absPathC (joinPathC baseDir.data filename.data))
    if ¬ listLeads (absPathStr baseDir).data fullPath.data then
      .error .traversal
    else if ¬ fs.contains fullPath then .error .notFound
    else .ok fullPath

def MEME_DIR : String := "/app/data/memes"

def THUMBNAIL_DIR : String := "/app/data/thumbnails"

/-- `GET /memes/{token}` (`serve_meme`). -/
def serveMeme (fs : List String) (now : Nat) (token : List Bool) :
    Except ServeErr String :=
  getSecureFilePath fs now token MEME_DIR

/-- `GET /thumbnails/{token}` (`serve_thumbnail`). -/
def serveThumbnail (fs : List String) (now : Nat) (token : List Bool) :
    Except ServeErr String :=
  getSecureFilePath fs now token THUMBNAIL_DIR

/-- The specification notion "path under the asset root": the root itself or
a descendant, i.e. the root followed by a separator. -/
def specUnderRoot (root p : String) : Bool :=
  decide (p = root) || listLeads (root.data ++ ['/']) p.data

/-! ## Derived notions used by the statements -/

/-- Number of rows carrying a given content fingerprint. -/
def countHash (rows : List Meme) (h : String) : Nat :=
  (rows.filter (fun r => decide (r.contentHash = some h))).length

/-- A well-formed stored tag (the amended §3 invariant): length at least 3
and made of word characters (ASCII letters, digits, underscore) none of
which is an uppercase letter. -/
@[reducible] def goodTag (t : String) : Prop :=
  3 ≤ t.data.length ∧ ∀ c ∈ t.data,
    isWordChar c = true ∧ ¬ (65 ≤ c.toNat ∧ c.toNat ≤ 90)

/-- The claimed §3 invariant verbatim: tags are lowercase alphanumeric
tokens of length at least 3 (underscore not being alphanumeric). -/
@[reducible] def claimedTag (t : String) : Prop :=
  3 ≤ t.data.length ∧ ∀ c ∈ t.data,
    pyIsAlnum c = true ∧ ¬ (65 ≤ c.toNat ∧ c.toNat ≤ 90)

/-- Normalization as claim C4 words it, applied to any source: split on
whitespace, strip non-alphanumerics, lowercase, discard tokens shorter
than 3 characters (a clearly spec-side definition, for comparison with the
code-side `ocrTagsList`). -/
def claimNormalizeList (text : String) : List String :=
  (((runsBy (fun c => !c.isWhitespace) text.data).map cleanWord).filter
    (fun w => 3 ≤ w.length)).map (fun l => String.mk l)

/-! ## Helper lemmas: sorting -/

theorem mem_insSorted {le : α → α → Bool} {x a : α} {l : List α} :
    a ∈ insSorted le x l ↔ a = x ∨ a ∈ l := by
  induction l with
  | nil => simp [insSorted]
  | cons y ys ih =>
    by_cases h : le x y = true
    · simp only [insSorted, if_pos h, List.mem_cons]
    · simp only [insSorted, if_neg h, List.mem_cons, ih]
      tauto

theorem length_insSorted {le : α → α → Bool} {x : α} {l : List α} :
    (insSorted le x l).length = l.length + 1 := by
  induction l with
  | nil => rfl
  | cons y ys ih =>
    by_cases h : le x y = true <;> simp [insSorted, h, ih]

theorem mem_sortBy {le : α → α → Bool} {a : α} {l : List α} :
    a ∈ sortBy le l ↔ a ∈ l := by
  induction l with
  | nil => simp [sortBy]
  | cons y ys ih => simp [sortBy, mem_insSorted, ih]

theorem length_sortBy {le : α → α → Bool} {l : List α} :
    (sortBy le l).length = l.length := by
  induction l with
  | nil => rfl
  | cons y ys ih => simp [sortBy, length_insSorted, ih]

theorem pairwise_insSorted {le : α → α → Bool}
    (htot : ∀ a b, le a b = true ∨ le b a = true)
    (htrans : ∀ a b c, le a b = true → le b c = true → le a c = true)
    {x : α} {l : List α}
    (hl : l.Pairwise (fun a b => le a b = true)) :
    (insSorted le x l).Pairwise (fun a b => le a b = true) := by
  induction l with
  | nil => simp [insSorted]
  | cons y ys ih =>
    rcases hl with _ | ⟨hy, hys⟩
    by_cases h : le x y = true
    · simp only [insSorted, if_pos h]
      refine .cons ?_ (.cons hy hys)
      intro b hb
      rcases List.mem_cons.1 hb with rfl | hb
      · exact h
      · exact htrans x y b h (hy b hb)
    · simp only [insSorted, if_neg h]
      refine .cons ?_ (ih hys)
      intro b hb
      rcases mem_insSorted.1 hb with rfl | hb
      · rcases htot b y with hby | hyb
        · exact absurd hby h
        · exact hyb
      · exact hy b hb

theorem pairwise_sortBy {le : α → α → Bool}
    (htot : ∀ a b, le a b = true ∨ le b a = true)
    (htrans : ∀ a b c, le a b = true → le b c = true → le a c = true)
    (l : List α) :
    (sortBy le l).Pairwise (fun a b => le a b = true) := by
  induction l with
  | nil => exact .nil
  | cons y ys ih => exact pairwise_insSorted htot htrans ih

/-! ## Helper lemmas: splitting and joining -/

theorem splitSep_ne_nil (sep : Char) (l : List Char) : splitSep sep l ≠ [] := by
  cases l with
  | nil => simp [splitSep]
  | cons c cs =>
    simp only [splitSep]
    rcases h : splitSep sep cs with _ | ⟨p, ps⟩
    · simp
    · by_cases hc : c = sep <;> simp [hc]

theorem splitSep_append (sep : Char) (xs ys : List Char) :
    splitSep sep (xs ++ sep :: ys) = splitSep sep xs ++ splitSep sep ys := by
  induction xs with
  | nil =>
    simp only [List.nil_append, splitSep]
    rcases h : splitSep sep ys with _ | ⟨p, ps⟩
    · exact absurd h (splitSep_ne_nil sep ys)
    · simp
  | cons x xs ih =>
    have hcons : ∀ (cs : List Char), splitSep sep (x :: cs) =
        match splitSep sep cs with
        | [] => [[]]
        | p :: ps => if x = sep then [] :: p :: ps else (x :: p) :: ps :=
      fun _ => rfl
    rw [List.cons_append, hcons, hcons, ih]
    rcases h : splitSep sep xs with _ | ⟨p, ps⟩
    · exact absurd h (splitSep_ne_nil sep xs)
    · by_cases hx : x = sep <;> simp [hx]

theorem splitSep_sepFree {sep : Char} {l : List Char}
    (h : ∀ c ∈ l, c ≠ sep) : splitSep sep l = [l] := by
  induction l with
  | nil => rfl
  | cons c cs ih =>
    have hc : c ≠ sep := h c (List.mem_cons_self c cs)
    have ihcs := ih (fun x hx => h x (List.mem_cons_of_mem c hx))
    simp [splitSep, ihcs, hc]

theorem joinSep_append_single (sep : Char) (ps : List (List Char))
    (q : List Char) (hps : ps ≠ []) :
    joinSep sep (ps ++ [q]) = joinSep sep ps ++ sep :: q := by
  induction ps with
  | nil => exact absurd rfl hps
  | cons p ps ih =>
    cases ps with
    | nil => rfl
    | cons p2 ps2 =>
      have h2 := ih (by simp)
      calc joinSep sep ((p :: p2 :: ps2) ++ [q])
          = p ++ sep :: joinSep sep ((p2 :: ps2) ++ [q]) := rfl
        _ = p ++ sep :: (joinSep sep (p2 :: ps2) ++ sep :: q) := by rw [h2]
        _ = (p ++ sep :: joinSep sep (p2 :: ps2)) ++ sep :: q := by simp
        _ = joinSep sep (p :: p2 :: ps2) ++ sep :: q := rfl

theorem splitSep_joinSep {sep : Char} {ps : List (List Char)} (hne : ps ≠ [])
    (hfree : ∀ p ∈ ps, ∀ c ∈ p, c ≠ sep) :
    splitSep sep (joinSep sep ps) = ps := by
  induction ps with
  | nil => exact absurd rfl hne
  | cons p ps ih =>
    cases ps with
    | nil => exact splitSep_sepFree (hfree p (by simp))
    | cons p2 ps2 =>
      have hj : joinSep sep (p :: p2 :: ps2) = p ++ sep :: joinSep sep (p2 :: ps2) := rfl
      rw [hj, splitSep_append,
        splitSep_sepFree (hfree p (by simp)),
        ih (by simp) (fun q hq c hc => hfree q (List.mem_cons_of_mem p hq) c hc)]
      rfl

theorem pyStripC_eq_self {l : List Char}
    (h : ∀ c ∈ l, c.isWhitespace = false) : pyStripC l = l := by
  unfold pyStripC
  have h1 : l.dropWhile Char.isWhitespace = l := by
    cases l with
    | nil => rfl
    | cons c cs => simp [List.dropWhile_cons, h c (by simp)]
  rw [h1]
  have h2 : l.reverse.dropWhile Char.isWhitespace = l.reverse := by
    cases hr : l.reverse with
    | nil => rfl
    | cons c cs =>
      have hc : c ∈ l := by
        rw [← List.mem_reverse, hr]
        simp
      simp [List.dropWhile_cons, h c hc]
  rw [h2, List.reverse_reverse]

theorem listLeads_append (l m : List Char) : listLeads l (l ++ m) = true := by
  induction l with
  | nil => rfl
  | cons c cs ih => simp [listLeads, ih]

/-! ## Helper lemmas: characters and tag well-formedness -/

theorem toNat_ofNat_small {m : Nat} (h : m < 0xd800) :
    (Char.ofNat m).toNat = m := by
  have hv : Nat.isValidChar m := Or.inl h
  rw [Char.ofNat, dif_pos hv]
  rfl

theorem pyLower_toNat (c : Char) :
    (pyLower c).toNat =
      if 65 ≤ c.toNat ∧ c.toNat ≤ 90 then c.toNat + 32 else c.toNat := by
  unfold pyLower
  by_cases h : 65 ≤ c.toNat ∧ c.toNat ≤ 90
  · rw [if_pos h, if_pos h, toNat_ofNat_small (by omega)]
  · rw [if_neg h, if_neg h]

theorem isWordChar_iff {c : Char} :
    isWordChar c = true ↔
      ((65 ≤ c.toNat ∧ c.toNat ≤ 90) ∨ (97 ≤ c.toNat ∧ c.toNat ≤ 122) ∨
        (48 ≤ c.toNat ∧ c.toNat ≤ 57) ∨ c.toNat = 95) := by
  simp [isWordChar, pyIsAlnum, Bool.or_eq_true, decide_eq_true_iff]
  tauto

theorem pyIsAlnum_iff {c : Char} :
    pyIsAlnum c = true ↔
      ((65 ≤ c.toNat ∧ c.toNat ≤ 90) ∨ (97 ≤ c.toNat ∧ c.toNat ≤ 122) ∨
        (48 ≤ c.toNat ∧ c.toNat ≤ 57)) := by
  simp [pyIsAlnum, decide_eq_true_iff]

theorem isWordChar_pyLower {c : Char} (h : isWordChar c = true) :
    isWordChar (pyLower c) = true ∧
      ¬ (65 ≤ (pyLower c).toNat ∧ (pyLower c).toNat ≤ 90) := by
  have h1 := isWordChar_iff.1 h
  have h2 := pyLower_toNat c
  constructor
  · rw [isWordChar_iff]
    by_cases hc : 65 ≤ c.toNat ∧ c.toNat ≤ 90 <;> rw [h2] <;> simp [hc] <;> omega
  · by_cases hc : 65 ≤ c.toNat ∧ c.toNat ≤ 90 <;> rw [h2] <;> simp [hc] <;> omega

theorem pyIsAlnum_pyLower {c : Char} (h : pyIsAlnum c = true) :
    isWordChar (pyLower c) = true ∧
      ¬ (65 ≤ (pyLower c).toNat ∧ (pyLower c).toNat ≤ 90) := by
  refine isWordChar_pyLower ?_
  simp [isWordChar, h]

theorem wordChar_not_ws {c : Char} (h : isWordChar c = true) :
    c.isWhitespace = false := by
  have h1 := isWordChar_iff.1 h
  by_contra hw
  have hw2 : c.isWhitespace = true := by
    revert hw
    cases c.isWhitespace <;> simp
  have hd : ((c = ' ' ∨ c = '\t') ∨ c = '\r') ∨ c = '\n' := by
    simpa [Char.isWhitespace, Bool.or_eq_true] using hw2
  rcases hd with ((rfl | rfl) | rfl) | rfl <;> revert h1 <;> decide

theorem wordChar_ne_comma {c : Char} (h : isWordChar c = true) : c ≠ ',' := by
  rintro rfl
  revert h
  decide

theorem strMk_data (s : String) : String.mk s.data = s := by
  cases s
  rfl

/-! ## Helper lemmas: runs -/

theorem runsByAux_mem {p : Char → Bool} {l : List Char} :
    ∀ {acc : List Char}, (∀ c ∈ acc, p c = true) →
    ∀ r ∈ runsByAux p acc l, r ≠ [] ∧ ∀ c ∈ r, p c = true := by
  induction l with
  | nil =>
    intro acc hacc r hr
    by_cases h : acc = []
    · simp [runsByAux, h] at hr
    · simp only [runsByAux, if_neg h, List.mem_singleton] at hr
      subst hr
      exact ⟨by simpa using h, fun c hc => hacc c (List.mem_reverse.1 hc)⟩
  | cons c cs ih =>
    intro acc hacc r hr
    simp only [runsByAux] at hr
    by_cases hpc : p c = true
    · rw [if_pos hpc] at hr
      refine ih ?_ r hr
      intro x hx
      rcases List.mem_cons.1 hx with rfl | hx2
      · exact hpc
      · exact hacc x hx2
    · rw [if_neg hpc] at hr
      by_cases hn : acc = []
      · rw [if_pos hn] at hr
        exact ih (by simp) r hr
      · rw [if_neg hn] at hr
        rcases List.mem_cons.1 hr with rfl | hr2
        · exact ⟨by simpa using hn, fun x hx => hacc x (List.mem_reverse.1 hx)⟩
        · exact ih (by simp) r hr2

theorem runsBy_mem {p : Char → Bool} {l : List Char} :
    ∀ r ∈ runsBy p l, r ≠ [] ∧ ∀ c ∈ r, p c = true :=
  runsByAux_mem (by simp)

/-! ## Helper lemmas: every stored tag string is well-formed -/

theorem goodTag_ocr {text : String} : ∀ t ∈ ocrTagsList text, goodTag t := by
  intro t ht
  unfold ocrTagsList at ht
  rw [mem_sortBy, List.mem_dedup] at ht
  rcases List.mem_map.1 ht with ⟨w, hw, rfl⟩
  rcases List.mem_filter.1 hw with ⟨hwruns, hwlen⟩
  constructor
  · show 3 ≤ (lowerC w).length
    have h1 : (lowerC w).length = w.length := by simp [lowerC]
    have h2 : 3 ≤ w.length := by simpa using hwlen
    omega
  · intro c hc
    rcases List.mem_map.1 hc with ⟨c0, hc0, rfl⟩
    have hword := (runsBy_mem w hwruns).2 c0 hc0
    exact isWordChar_pyLower hword

theorem goodTag_caption {caption : String} :
    ∀ t ∈ captionTagsList caption, goodTag t := by
  intro t ht
  unfold captionTagsList at ht
  rcases List.mem_map.1 ht with ⟨w, hw, rfl⟩
  rcases List.mem_filter.1 hw with ⟨hwmap, hwlen⟩
  constructor
  · show 3 ≤ w.length
    have : 2 < w.length := by simpa using hwlen
    omega
  · intro c hc
    rcases List.mem_map.1 hwmap with ⟨w0, hw0, rfl⟩
    rcases List.mem_map.1 hc with ⟨c0, hc0, rfl⟩
    have halnum : pyIsAlnum c0 = true := (List.mem_filter.1 hc0).2
    exact pyIsAlnum_pyLower halnum

theorem goodTag_props {t : String} (h : goodTag t) :
    t.data ≠ [] ∧ ∀ c ∈ t.data, c.isWhitespace = false ∧ c ≠ ',' := by
  obtain ⟨hlen, hchars⟩ := h
  constructor
  · intro hnil
    rw [hnil] at hlen
    simp at hlen
  · intro c hc
    exact ⟨wordChar_not_ws (hchars c hc).1, wordChar_ne_comma (hchars c hc).1⟩

/-- Reading back a stored comma-joined tag string only yields tags from the
joined list, provided each is nonempty, whitespace-free and comma-free. -/
theorem parseTags_joinTags {ts : List String}
    (h : ∀ t ∈ ts, t.data ≠ [] ∧ ∀ c ∈ t.data,
      c.isWhitespace = false ∧ c ≠ ',') :
    ∀ u ∈ parseTags (joinTags ts), u ∈ ts := by
  intro u hu
  unfold joinTags at hu
  rcases hps : sortBy strLe ts.dedup with _ | ⟨p1, ps⟩
  · rw [hps] at hu
    have hnone : parseTags
        (String.mk (joinSep ',' (List.map String.data []))) = [] := by decide
    rw [hnone] at hu
    simp at hu
  · rw [hps] at hu
    have hmemts : ∀ q ∈ p1 :: ps, q ∈ ts := by
      intro q hq
      have : q ∈ sortBy strLe ts.dedup := by rw [hps]; exact hq
      exact List.mem_dedup.1 (mem_sortBy.1 this)
    have hfree : ∀ pd ∈ (p1 :: ps).map String.data, ∀ c ∈ pd, c ≠ ',' := by
      intro pd hpd c hc
      rcases List.mem_map.1 hpd with ⟨q, hq, rfl⟩
      exact ((h q (hmemts q hq)).2 c hc).2
    have hsplit : splitSep ',' (joinSep ','
        ((p1 :: ps).map String.data)) = (p1 :: ps).map String.data :=
      splitSep_joinSep (by simp) hfree
    unfold parseTags at hu
    have hdata : (String.mk (joinSep ',' ((p1 :: ps).map String.data))).data
        = joinSep ',' ((p1 :: ps).map String.data) := rfl
    rw [hdata, hsplit] at hu
    rcases List.mem_map.1 hu with ⟨pd, hpd, rfl⟩
    rcases List.mem_filter.1 hpd with ⟨hpd1, _⟩
    rcases List.mem_map.1 hpd1 with ⟨pd0, hpd0, rfl⟩
    rcases List.mem_map.1 hpd0 with ⟨q, hq, rfl⟩
    have hqts := hmemts q hq
    have hstrip : pyStripC q.data = q.data :=
      pyStripC_eq_self (fun c hc => ((h q hqts).2 c hc).1)
    rw [hstrip, strMk_data]
    exact hqts

/-! ## Claim C4: tag normalization -/

/-- C4, counterexample.  The claim states that tag normalization strips
non-alphanumeric characters from whitespace-separated tokens and that the
OCR source additionally passes through a stop-word filter.  The code-side
OCR normalization (`get_tags_for_image`) does neither: on `"foo_bar x"` it
keeps the underscore run `"foo_bar"` whereas the claimed normalization
strips the underscores and yields `"foobar"` (so no stop-word set can
reconcile the two), and on `"the cat and for"` it retains every common
function word. -/
theorem c4_counterexample :
    ocrTagsList "foo_bar x" = ["foo_bar"] ∧
    claimNormalizeList "foo_bar x" = ["foobar"] ∧
    ocrTagsList "the cat and for" = ["and", "cat", "for", "the"] :=
  ⟨by decide, by decide, by decide⟩

/-- C4, amended.  Caption normalization is exactly as the claim words it
(split on whitespace, strip non-alphanumerics, lowercase, discard tokens
shorter than 3); OCR normalization instead extracts maximal word-character
runs (letters, digits, underscore) of length at least 3 and lowercases
them, and no stop-word list is applied to either source; on
`"A Cat! sat on a MAT."` both yield exactly the set `{cat, sat, mat}`. -/
theorem c4_normalization_amended :
    (∀ text : String, captionTagsList text = claimNormalizeList text) ∧
    captionTagsList "A Cat! sat on a MAT." = ["cat", "sat", "mat"] ∧
    ocrTagsList "A Cat! sat on a MAT." = ["cat", "mat", "sat"] ∧
    (∀ text : String, ∀ t ∈ ocrTagsList text,
      3 ≤ t.data.length ∧ ∀ c ∈ t.data, isWordChar c = true) := by
  refine ⟨?_, by decide, by decide, ?_⟩
  · intro text
    rfl
  · intro text t ht
    obtain ⟨hlen, hchars⟩ := goodTag_ocr t ht
    exact ⟨hlen, fun c hc => (hchars c hc).1⟩

/-- C4 amended, witness at the concrete example. -/
theorem c4_witness :
    captionTagsList "A Cat! sat on a MAT."
      = claimNormalizeList "A Cat! sat on a MAT." ∧
    ("cat" ∈ ocrTagsList "A Cat! sat on a MAT." ∧
      3 ≤ ("cat" : String).data.length) :=
  ⟨c4_normalization_amended.1 _,
    ⟨by decide,
      (c4_normalization_amended.2.2.2 "A Cat! sat on a MAT." "cat"
        (by decide)).1⟩⟩

/-! ## Claim C1: replaceTags is a wholesale, idempotent overwrite -/

theorem update_meme_tags_idem (rows : List Meme) (h ts : String) :
    update_meme_tags (update_meme_tags rows h ts) h ts
      = update_meme_tags rows h ts := by
  unfold update_meme_tags
  rw [List.map_map]
  apply List.map_congr_left
  intro r _
  by_cases hr : r.contentHash = some h <;> simp [hr]

/-- C1: after `replaceTags(H1, {x, y})` every record listed with
fingerprint `H1` carries the stored tag string `"x,y"` — which reads back
as exactly the tag set `{x, y}`, with no trace of the prior tags — and
applying the same `replaceTags` again leaves the store unchanged.
(The repository operation is spec-modelled, see `update_meme_tags`.) -/
theorem c1_replace_tags (rows : List Meme) (h1 : String) :
    (∀ r ∈ get_all_memes (update_meme_tags rows h1 (joinTags ["x", "y"])),
      r.contentHash = some h1 →
        r.tags = "x,y" ∧ parseTags r.tags = ["x", "y"]) ∧
    update_meme_tags (update_meme_tags rows h1 (joinTags ["x", "y"])) h1
        (joinTags ["x", "y"])
      = update_meme_tags rows h1 (joinTags ["x", "y"]) := by
  constructor
  · intro r hr hhash
    have hjoin : joinTags ["x", "y"] = "x,y" := by decide
    rcases List.mem_map.1 hr with ⟨r0, _, rfl⟩
    by_cases h0 : r0.contentHash = some h1
    · rw [if_pos h0, hjoin]
      refine ⟨rfl, ?_⟩
      show parseTags "x,y" = ["x", "y"]
      decide
    · rw [if_neg h0] at hhash ⊢
      exact absurd hhash h0
  · exact update_meme_tags_idem rows h1 (joinTags ["x", "y"])

/-- C1, witness: a concrete store with one record under fingerprint H1. -/
theorem c1_witness :
    (Meme.mk 1 "f.jpg" "x,y" (some "H1")).tags = "x,y" ∧
    parseTags (Meme.mk 1 "f.jpg" "x,y" (some "H1")).tags = ["x", "y"] :=
  (c1_replace_tags [⟨1, "f.jpg", "old,prior", some "H1"⟩] "H1").1
    ⟨1, "f.jpg", "x,y", some "H1"⟩ (by decide) (by decide)

/-! ## Claims C3 and C7: deduplicated persistence and commit ordering -/

/-- Boolean duplicate condition of the unique index. -/
theorem hash_present_iff {rows : List Meme} {h : String} :
    rows.any (fun r => decide (r.contentHash = some h)) = true ↔
      ∃ r ∈ rows, r.contentHash = some h := by
  simp [List.any_eq_true]

theorem savePhoto_fresh {rows : List Meme} {files : List String}
    {fn h oc cap : String}
    (hfresh : ∀ r ∈ rows, r.contentHash ≠ some h) :
    savePhoto rows files fn h oc cap =
      { rows := rows ++
          [⟨nextRowId rows, fn, joinTags (savePhotoTags oc cap), some h⟩]
        memeFiles := fn :: files
        tempRemains := false
        moved := true
        reply := if savePhotoTags oc cap = [] then .savedNoTags
          else .savedWithTags } := by
  have hany : rows.any (fun r => decide (r.contentHash = some h)) = false := by
    rw [List.any_eq_false]
    intro r hr
    simp [hfresh r hr]
  unfold savePhoto insert_meme
  rw [hany]
  simp

theorem savePhoto_dup {rows : List Meme} {files : List String}
    {fn h oc cap : String}
    (hdup : ∃ r ∈ rows, r.contentHash = some h) :
    savePhoto rows files fn h oc cap =
      { rows := rows
        memeFiles := files
        tempRemains := false
        moved := false
        reply := .alreadySaved } := by
  have hany := hash_present_iff.2 hdup
  unfold savePhoto insert_meme
  rw [hany]
  simp

theorem countHash_append (rows1 rows2 : List Meme) (h : String) :
    countHash (rows1 ++ rows2) h = countHash rows1 h + countHash rows2 h := by
  unfold countHash
  rw [List.filter_append, List.length_append]

theorem countHash_eq_zero {rows : List Meme} {h : String}
    (hfresh : ∀ r ∈ rows, r.contentHash ≠ some h) : countHash rows h = 0 := by
  unfold countHash
  rw [List.length_eq_zero, List.filter_eq_nil_iff]
  intro r hr
  simp [hfresh r hr]

/-- C3: submitting byte-identical content twice (hence the same SHA-256
fingerprint, `_calculate_hash` being a function of the bytes) creates
exactly one record: the first insert succeeds, the second hits the unique
index on `content_hash`, is surfaced as the "already saved" outcome, and
leaves the store unchanged. -/
theorem c3_duplicate_insert (rows : List Meme) (files1 files2 : List String)
    (fn1 fn2 h oc1 cap1 oc2 cap2 : String)
    (hfresh : ∀ r ∈ rows, r.contentHash ≠ some h) :
    countHash (savePhoto rows files1 fn1 h oc1 cap1).rows h = 1 ∧
    (savePhoto (savePhoto rows files1 fn1 h oc1 cap1).rows files2 fn2 h
        oc2 cap2).rows
      = (savePhoto rows files1 fn1 h oc1 cap1).rows ∧
    (savePhoto (savePhoto rows files1 fn1 h oc1 cap1).rows files2 fn2 h
        oc2 cap2).reply = .alreadySaved ∧
    countHash (savePhoto (savePhoto rows files1 fn1 h oc1 cap1).rows files2
        fn2 h oc2 cap2).rows h = 1 := by
  rw [savePhoto_fresh hfresh]
  have hcount : countHash (rows ++
      [⟨nextRowId rows, fn1, joinTags (savePhotoTags oc1 cap1), some h⟩]) h
      = 1 := by
    rw [countHash_append, countHash_eq_zero hfresh]
    simp [countHash]
  have hdup : ∃ r ∈ rows ++
      [⟨nextRowId rows, fn1, joinTags (savePhotoTags oc1 cap1), some h⟩],
      r.contentHash = some h :=
    ⟨⟨nextRowId rows, fn1, joinTags (savePhotoTags oc1 cap1), some h⟩,
      by simp, rfl⟩
  rw [savePhoto_dup hdup]
  exact ⟨hcount, rfl, rfl, hcount⟩

/-- C3, witness: the same bytes (hash `"H"`) submitted twice into an empty
store. -/
theorem c3_witness :
    countHash (savePhoto [] [] "a.jpg" "H" "" "cat pic").rows "H" = 1 ∧
    (savePhoto (savePhoto [] [] "a.jpg" "H" "" "cat pic").rows []
        "b.jpg" "H" "" "again").rows
      = (savePhoto [] [] "a.jpg" "H" "" "cat pic").rows ∧
    (savePhoto (savePhoto [] [] "a.jpg" "H" "" "cat pic").rows []
        "b.jpg" "H" "" "again").reply = .alreadySaved ∧
    countHash (savePhoto (savePhoto [] [] "a.jpg" "H" "" "cat pic").rows []
        "b.jpg" "H" "" "again").rows "H" = 1 :=
  c3_duplicate_insert [] [] [] "a.jpg" "b.jpg" "H" "" "cat pic" "" "again"
    (by simp)

/-- C7: in one ingestion the temporary file never survives the handler
(cleanup on every exit path); on a duplicate fingerprint nothing is
committed to the originals directory, the store is untouched and the reply
is "already saved"; and the move into the originals directory happens
exactly when the insert succeeded, after which the new record (referencing
the moved file) is present. -/
theorem c7_commit_order (rows : List Meme) (files : List String)
    (fn h oc cap : String) :
    (savePhoto rows files fn h oc cap).tempRemains = false ∧
    ((∃ r ∈ rows, r.contentHash = some h) →
      (savePhoto rows files fn h oc cap).rows = rows ∧
      (savePhoto rows files fn h oc cap).memeFiles = files ∧
      (savePhoto rows files fn h oc cap).moved = false ∧
      (savePhoto rows files fn h oc cap).reply = .alreadySaved) ∧
    ((savePhoto rows files fn h oc cap).moved = true ↔
      ∀ r ∈ rows, r.contentHash ≠ some h) ∧
    ((savePhoto rows files fn h oc cap).moved = true →
      fn ∈ (savePhoto rows files fn h oc cap).memeFiles ∧
      ∃ r ∈ (savePhoto rows files fn h oc cap).rows,
        r.contentHash = some h ∧ r.filePath = fn) := by
  by_cases hdup : ∃ r ∈ rows, r.contentHash = some h
  · rw [savePhoto_dup hdup]
    refine ⟨rfl, fun _ => ⟨rfl, rfl, rfl, rfl⟩, ?_, ?_⟩
    · constructor
      · intro hfalse
        exact absurd hfalse (by simp)
      · intro hfresh
        obtain ⟨r, hr, hh⟩ := hdup
        exact absurd hh (hfresh r hr)
    · intro hfalse
      exact absurd hfalse (by simp)
  · push_neg at hdup
    rw [savePhoto_fresh hdup]
    refine ⟨rfl, ?_, ?_, ?_⟩
    · intro hcon
      obtain ⟨r, hr, hh⟩ := hcon
      exact absurd hh (hdup r hr)
    · exact ⟨fun _ => hdup, fun _ => rfl⟩
    · intro _
      refine ⟨by simp, ?_⟩
      exact ⟨⟨nextRowId rows, fn, joinTags (savePhotoTags oc cap), some h⟩,
        by simp, rfl, rfl⟩

/-- C7, witness: a duplicate submission against a one-record store. -/
theorem c7_witness :
    (savePhoto [⟨1, "a.jpg", "cat", some "H"⟩] ["/x/a.jpg"] "b.jpg" "H" ""
      "").tempRemains = false ∧
    (savePhoto [⟨1, "a.jpg", "cat", some "H"⟩] ["/x/a.jpg"] "b.jpg" "H" ""
      "").rows = [⟨1, "a.jpg", "cat", some "H"⟩] ∧
    (savePhoto [⟨1, "a.jpg", "cat", some "H"⟩] ["/x/a.jpg"] "b.jpg" "H" ""
      "").reply = .alreadySaved := by
  have hc := c7_commit_order [⟨1, "a.jpg", "cat", some "H"⟩] ["/x/a.jpg"]
    "b.jpg" "H" "" ""
  have hd := hc.2.1 ⟨⟨1, "a.jpg", "cat", some "H"⟩, by simp, rfl⟩
  exact ⟨hc.1, hd.1, hd.2.2.2⟩

/-! ## Claim C9: rescan idempotence -/

theorem mem_get_all_hashes {rows : List Meme} {h : String} :
    h ∈ get_all_hashes rows ↔ ∃ r ∈ rows, r.contentHash = some h := by
  unfold get_all_hashes
  simp [List.mem_filterMap]

theorem insert_meme_fresh {rows : List Meme} {h path tags : String}
    (hfresh : ¬ ∃ r ∈ rows, r.contentHash = some h) :
    insert_meme rows h path tags =
      .ok (nextRowId rows, rows ++ [⟨nextRowId rows, path, tags, some h⟩]) := by
  have hany : rows.any (fun r => decide (r.contentHash = some h)) = false := by
    rw [List.any_eq_false]
    intro r hr
    simp only [decide_eq_true_iff]
    exact fun hh => hfresh ⟨r, hr, hh⟩
  unfold insert_meme
  rw [hany]
  simp

theorem insert_meme_dup {rows : List Meme} {h path tags : String}
    (hdup : ∃ r ∈ rows, r.contentHash = some h) :
    insert_meme rows h path tags = .error () := by
  unfold insert_meme
  rw [hash_present_iff.2 hdup]
  simp

theorem get_all_hashes_append (rows1 rows2 : List Meme) :
    get_all_hashes (rows1 ++ rows2)
      = get_all_hashes rows1 ++ get_all_hashes rows2 := by
  unfold get_all_hashes
  exact List.filterMap_append rows1 rows2 _

theorem rescanLoop_hashes_mono {existing : List String}
    {fs : List ScanFile} :
    ∀ {rows : List Meme} {h : String}, h ∈ get_all_hashes rows →
      h ∈ get_all_hashes (rescanLoop existing rows fs).1 := by
  induction fs with
  | nil => intro rows h hh; exact hh
  | cons f fs ih =>
    intro rows h hh
    show h ∈ get_all_hashes (rescanLoop existing rows (f :: fs)).1
    unfold rescanLoop
    by_cases hmem : f.hash ∈ existing
    · rw [if_pos hmem]
      exact ih hh
    · rw [if_neg hmem]
      by_cases hdup : ∃ r ∈ rows, r.contentHash = some f.hash
      · rw [insert_meme_dup hdup]
        exact ih hh
      · rw [insert_meme_fresh hdup]
        refine ih ?_
        rw [get_all_hashes_append]
        exact List.mem_append_left _ hh

/-- After one pass of the rescan loop, every listed file content hash is in
the store, provided the snapshot only contained hashes of stored rows. -/
theorem rescanLoop_covers {existing : List String} {fs : List ScanFile} :
    ∀ {rows : List Meme},
      (∀ x ∈ existing, x ∈ get_all_hashes rows) →
      ∀ f ∈ fs, f.hash ∈ get_all_hashes (rescanLoop existing rows fs).1 := by
  induction fs with
  | nil => intro rows _ f hf; simp at hf
  | cons f0 fs ih =>
    intro rows hex f hf
    show f.hash ∈ get_all_hashes (rescanLoop existing rows (f0 :: fs)).1
    unfold rescanLoop
    by_cases hmem : f0.hash ∈ existing
    · rw [if_pos hmem]
      rcases List.mem_cons.1 hf with rfl | hf2
      · exact rescanLoop_hashes_mono (hex f.hash hmem)
      · exact ih hex f hf2
    · rw [if_neg hmem]
      by_cases hdup : ∃ r ∈ rows, r.contentHash = some f0.hash
      · rw [insert_meme_dup hdup]
        rcases List.mem_cons.1 hf with rfl | hf2
        · exact rescanLoop_hashes_mono (mem_get_all_hashes.2 hdup)
        · exact ih hex f hf2
      · rw [insert_meme_fresh hdup]
        have hex2 : ∀ x ∈ existing, x ∈ get_all_hashes (rows ++
            [⟨nextRowId rows, f0.name,
              joinTags (ocrTagsList f0.ocrText), some f0.hash⟩]) := by
          intro x hx
          rw [get_all_hashes_append]
          exact List.mem_append_left _ (hex x hx)
        rcases List.mem_cons.1 hf with rfl | hf2
        · refine rescanLoop_hashes_mono ?_
          rw [get_all_hashes_append]
          refine List.mem_append_right _ ?_
          show f.hash ∈ get_all_hashes [⟨nextRowId rows, f.name,
            joinTags (ocrTagsList f.ocrText), some f.hash⟩]
          simp [get_all_hashes]
        · exact ih hex2 f hf2

/-- When every listed file hash is already in the snapshot, the loop is a
no-op and counts zero additions. -/
theorem rescanLoop_skip {existing : List String} {fs : List ScanFile}
    (rows : List Meme) (hall : ∀ f ∈ fs, f.hash ∈ existing) :
    rescanLoop existing rows fs = (rows, 0) := by
  induction fs with
  | nil => rfl
  | cons f fs ih =>
    show rescanLoop existing rows (f :: fs) = (rows, 0)
    unfold rescanLoop
    rw [if_pos (hall f (by simp))]
    exact ih (fun g hg => hall g (List.mem_cons_of_mem f hg))

/-- C9: running `rescan` twice over the same directory listing (no
filesystem change in between) adds zero records the second time and leaves
the store exactly as after the first run. -/
theorem c9_rescan_idempotent (rows : List Meme) (files : List ScanFile) :
    (rescan (rescan rows files).1 files).1 = (rescan rows files).1 ∧
    (rescan (rescan rows files).1 files).2 = 0 := by
  have hcov : ∀ f ∈ files, f.hash ∈ get_all_hashes (rescan rows files).1 :=
    rescanLoop_covers (fun x hx => hx)
  have hskip := rescanLoop_skip ((rescan rows files).1) hcov
  unfold rescan
  unfold rescan at hskip
  rw [hskip]
  exact ⟨rfl, rfl⟩

/-! ## Claim C6: search semantics -/

theorem memeMatches_nil (m : Meme) : memeMatches [] m = true := rfl

/-- The two branches of `inline_query` collapse to one filter-sort-take. -/
theorem inlineSearch_eq (query : String) (memes : List Meme) :
    inlineSearch query memes
      = (sortBy idGe
          (memes.filter (memeMatches (queryTokens query)))).take 50 := by
  unfold inlineSearch
  by_cases hq : lowerC query.data ≠ []
  · rw [if_pos hq]
  · rw [if_neg hq]
    push_neg at hq
    have hqnil : query.data = [] := by
      have hlen := congrArg List.length hq
      rw [lowerC, List.length_map, List.length_nil] at hlen
      exact List.length_eq_zero.1 hlen
    have htok : queryTokens query = [] := by
      unfold queryTokens
      rw [hqnil]
      rfl
    rw [htok]
    have : memes.filter (memeMatches []) = memes := by
      rw [List.filter_eq_self]
      intro m _
      exact memeMatches_nil m
    rw [this]

theorem mem_queryMatch {qts : List String} {m : Meme}
    (h : memeMatches qts m = true) : ∀ t ∈ qts, t ∈ parseTags m.tags := by
  intro t ht
  have := (List.all_eq_true.1 h) t ht
  simpa [List.contains, List.elem_iff] using this

theorem idGe_total (a b : Meme) : idGe a b = true ∨ idGe b a = true := by
  unfold idGe
  rcases Nat.le_total a.id b.id with h | h <;> simp [h]

theorem idGe_trans (a b c : Meme) (h1 : idGe a b = true)
    (h2 : idGe b c = true) : idGe a c = true := by
  unfold idGe at *
  simp only [decide_eq_true_iff] at *
  omega

/-- C6: `inline_query` returns at most 50 records; each returned record is
a stored record whose tag set contains every query token (AND semantics on
exact tokens); results are ordered by id descending; whenever the match
set fits the cap the returned records are exactly the matching ones; and
the empty query keeps every record. -/
theorem c6_search_semantics (query : String) (memes : List Meme) :
    (inlineSearch query memes).length ≤ 50 ∧
    (∀ m ∈ inlineSearch query memes, m ∈ memes ∧
      ∀ t ∈ queryTokens query, t ∈ parseTags m.tags) ∧
    (inlineSearch query memes).Pairwise (fun a b => b.id ≤ a.id) ∧
    ((memes.filter (memeMatches (queryTokens query))).length ≤ 50 →
      ∀ m, m ∈ inlineSearch query memes ↔
        (m ∈ memes ∧ memeMatches (queryTokens query) m = true)) ∧
    (query = "" →
      inlineSearch query memes = (sortBy idGe memes).take 50) := by
  rw [inlineSearch_eq]
  refine ⟨?_, ?_, ?_, ?_, ?_⟩
  · rw [List.length_take]
    exact Nat.min_le_left _ _
  · intro m hm
    have hm2 : m ∈ sortBy idGe (memes.filter (memeMatches (queryTokens query))) :=
      (List.take_sublist 50 _).mem hm
    have hm3 := mem_sortBy.1 hm2
    rcases List.mem_filter.1 hm3 with ⟨hmem, hmatch⟩
    exact ⟨hmem, mem_queryMatch hmatch⟩
  · have hp := pairwise_sortBy idGe_total idGe_trans
      (memes.filter (memeMatches (queryTokens query)))
    have hp2 := List.Pairwise.sublist (List.take_sublist 50 _) hp
    refine hp2.imp ?_
    intro a b hab
    exact decide_eq_true_iff.1 hab
  · intro hlen m
    have hlen2 : (sortBy idGe (memes.filter
        (memeMatches (queryTokens query)))).length ≤ 50 := by
      rw [length_sortBy]
      exact hlen
    rw [List.take_of_length_le hlen2, mem_sortBy, List.mem_filter]
  · intro hq
    subst hq
    have htok : queryTokens "" = [] := rfl
    rw [htok]
    have : memes.filter (memeMatches []) = memes := by
      rw [List.filter_eq_self]
      intro m _
      exact memeMatches_nil m
    rw [this]

/-- C6, witness: two records, one matching query `"cat"`. -/
theorem c6_witness :
    ((([(⟨2, "b", "cat,dog", some "H2"⟩ : Meme),
        ⟨1, "a", "dog", some "H1"⟩].filter
          (memeMatches (queryTokens "cat"))).length ≤ 50) →
      ∀ m, m ∈ inlineSearch "cat"
          [⟨2, "b", "cat,dog", some "H2"⟩, ⟨1, "a", "dog", some "H1"⟩] ↔
        (m ∈ [(⟨2, "b", "cat,dog", some "H2"⟩ : Meme),
            ⟨1, "a", "dog", some "H1"⟩] ∧
          memeMatches (queryTokens "cat") m = true)) ∧
    (inlineSearch "cat" [(⟨2, "b", "cat,dog", some "H2"⟩ : Meme),
        ⟨1, "a", "dog", some "H1"⟩]).Pairwise (fun a b => b.id ≤ a.id) :=
  ⟨(c6_search_semantics "cat" _).2.2.2.1,
    (c6_search_semantics "cat" _).2.2.1⟩

/-! ## Claim C8: the stored-tag invariant -/

theorem savePhotoTags_good {oc cap : String} :
    ∀ u ∈ savePhotoTags oc cap, goodTag u := by
  intro u hu
  rcases List.mem_append.1 hu with h1 | h2
  · exact goodTag_ocr u h1
  · exact goodTag_caption u h2

theorem parse_join_good {ts : List String} (hts : ∀ u ∈ ts, goodTag u) :
    ∀ t ∈ parseTags (joinTags ts), goodTag t := by
  intro t ht
  exact hts t (parseTags_joinTags (fun u hu => goodTag_props (hts u hu)) t ht)

theorem rescanLoop_good {existing : List String} {fs : List ScanFile} :
    ∀ {rows : List Meme},
      (∀ r ∈ rows, ∀ t ∈ parseTags r.tags, goodTag t) →
      ∀ r ∈ (rescanLoop existing rows fs).1, ∀ t ∈ parseTags r.tags,
        goodTag t := by
  induction fs with
  | nil => intro rows hinv r hr; exact hinv r hr
  | cons f fs ih =>
    intro rows hinv r hr
    rw [show rescanLoop existing rows (f :: fs)
        = (if f.hash ∈ existing then rescanLoop existing rows fs
          else match insert_meme rows f.hash f.name
              (joinTags (ocrTagsList f.ocrText)) with
            | .ok (_, rows2) =>
                let r := rescanLoop existing rows2 fs
                (r.1, r.2 + 1)
            | .error _ => rescanLoop existing rows fs) from rfl] at hr
    by_cases hmem : f.hash ∈ existing
    · rw [if_pos hmem] at hr
      exact ih hinv r hr
    · rw [if_neg hmem] at hr
      by_cases hdup : ∃ r0 ∈ rows, r0.contentHash = some f.hash
      · rw [insert_meme_dup hdup] at hr
        exact ih hinv r hr
      · rw [insert_meme_fresh hdup] at hr
        refine ih ?_ r hr
        intro r0 hr0 t ht
        rcases List.mem_append.1 hr0 with h1 | h2
        · exact hinv r0 h1 t ht
        · have he : r0 = ⟨nextRowId rows, f.name,
              joinTags (ocrTagsList f.ocrText), some f.hash⟩ := by
            simpa using h2
          subst he
          exact parse_join_good (fun u hu => goodTag_ocr u hu) t ht

/-- C8, counterexample.  The OCR path stores the underscore-bearing token
`"foo_bar"`, which is not alphanumeric, so a reachable store violates the
claimed "lowercase alphanumeric" invariant. -/
theorem c8_counterexample :
    Reach [⟨1, "f.jpg", "foo_bar", some "H"⟩] ∧
    "foo_bar" ∈ parseTags (Meme.mk 1 "f.jpg" "foo_bar" (some "H")).tags ∧
    ¬ claimedTag "foo_bar" := by
  refine ⟨?_, by decide, by decide⟩
  · have h := Reach.save [] [] "f.jpg" "H" "foo_bar x" "" Reach.init
    have he : (savePhoto [] [] "f.jpg" "H" "foo_bar x" "").rows
        = [⟨1, "f.jpg", "foo_bar", some "H"⟩] := by decide
    rw [he] at h
    exact h

/-- C8, amended: every record stored by any ingestion path (caption save,
OCR save, rescan, retag) carries only tags of length at least 3 consisting
of lowercase word characters — ASCII letters, digits or underscore, never
an uppercase letter (the original claim said "alphanumeric", which the
underscore in OCR-derived tags refutes). -/
theorem c8_tag_invariant_amended {rows : List Meme} (h : Reach rows) :
    ∀ r ∈ rows, ∀ t ∈ parseTags r.tags, goodTag t := by
  induction h with
  | init => intro r hr; simp at hr
  | save rows0 files fn hsh oc cap _ ih =>
    intro r hr t ht
    by_cases hdup : ∃ r0 ∈ rows0, r0.contentHash = some hsh
    · rw [savePhoto_dup hdup] at hr
      exact ih r hr t ht
    · push_neg at hdup
      rw [savePhoto_fresh hdup] at hr
      rcases List.mem_append.1 hr with h1 | h2
      · exact ih r h1 t ht
      · have he : r = ⟨nextRowId rows0, fn,
            joinTags (savePhotoTags oc cap), some hsh⟩ := by
          simpa using h2
        subst he
        exact parse_join_good savePhotoTags_good t ht
  | scan rows0 files _ ih => exact rescanLoop_good ih
  | retag rows0 hsh oc _ ih =>
    intro r hr t ht
    rcases List.mem_map.1 hr with ⟨r0, hr0, rfl⟩
    by_cases h0 : r0.contentHash = some hsh
    · rw [if_pos h0] at ht
      exact parse_join_good (fun u hu => goodTag_ocr u hu) t ht
    · rw [if_neg h0] at ht
      exact ih r0 hr0 t ht
  | clear rows0 _ _ => intro r hr; simp [clear_database] at hr

/-- C8 amended, witness: a concrete OCR ingestion into an empty store. -/
theorem c8_witness : goodTag "cat" := by
  have hr : Reach ((savePhoto [] [] "f.jpg" "H" "cat pic" "").rows) :=
    Reach.save [] [] "f.jpg" "H" "cat pic" "" Reach.init
  have he : (savePhoto [] [] "f.jpg" "H" "cat pic" "").rows
      = [⟨1, "f.jpg", "cat,pic", some "H"⟩] := by decide
  rw [he] at hr
  exact c8_tag_invariant_amended hr ⟨1, "f.jpg", "cat,pic", some "H"⟩
    (by decide) "cat" (by decide)

/-! ## Claim C5: token validity window and tamper evidence -/

theorem length_natToBits (k n : Nat) : (natToBits k n).length = k := by
  induction k generalizing n with
  | zero => rfl
  | succ k ih => simp [natToBits, ih]

theorem natOfBits_natToBits {k n : Nat} (h : n < 2 ^ k) :
    natOfBits (natToBits k n) = n := by
  induction k generalizing n with
  | zero =>
    have : n = 0 := by
      have := h
      simp [Nat.pow_zero] at this
      omega
    simp [natToBits, natOfBits, this]
  | succ k ih =>
    have h2 : n / 2 < 2 ^ k := by
      rw [Nat.pow_succ] at h
      omega
    have := ih h2
    simp only [natToBits, natOfBits, this]
    by_cases hp : n % 2 = 1 <;> simp [hp] <;> omega

theorem char_toNat_lt_two_pow (c : Char) : c.toNat < 2 ^ 32 := by
  have h := c.val.toBitVec.isLt
  exact h

theorem charOfBits_bitsOfChar (c : Char) : charOfBits (bitsOfChar c) = c := by
  unfold charOfBits bitsOfChar
  rw [natOfBits_natToBits (char_toNat_lt_two_pow c)]
  exact Char.ofNat_toNat c

theorem length_bitsOfChar (c : Char) : (bitsOfChar c).length = 32 :=
  length_natToBits 32 c.toNat

theorem encodeChars_length (l : List Char) :
    ((l.map bitsOfChar).flatten).length = 32 * l.length := by
  induction l with
  | nil => rfl
  | cons c cs ih =>
    simp only [List.map_cons, List.flatten_cons, List.length_append, ih,
      length_bitsOfChar, List.length_cons]
    ring

theorem encodeStr_length (s : String) :
    (encodeStr s).length = 32 * s.data.length :=
  encodeChars_length s.data

theorem decodeChars_encodeChars (l : List Char) :
    decodeChars l.length ((l.map bitsOfChar).flatten) = l := by
  induction l with
  | nil => rfl
  | cons c cs ih =>
    show decodeChars (cs.length + 1)
      (bitsOfChar c ++ (cs.map bitsOfChar).flatten) = c :: cs
    unfold decodeChars
    rw [show (32 : Nat) = (bitsOfChar c).length from
        (length_bitsOfChar c).symm,
      List.take_left, List.drop_left, charOfBits_bitsOfChar, ih]

theorem tokenBody_length (p : String) (t : Nat) :
    (tokenBody p t).length = 32 * p.data.length + 64 := by
  unfold tokenBody
  rw [List.length_append, encodeStr_length, length_natToBits]

/-- Validation of an untampered token succeeds exactly inside the 3600
second window and returns the signed payload. -/
theorem loadsTok_dumpsTok (p : String) (t now : Nat) (ht : t < 2 ^ 64) :
    loadsTok (dumpsTok p t) now =
      if t ≤ now ∧ now - t ≤ 3600 then .ok p else .error .expired := by
  unfold loadsTok dumpsTok
  have hlen : (tokenBody p t ++ tokenBody p t).length
      = (tokenBody p t).length + (tokenBody p t).length :=
    List.length_append _ _
  rw [hlen]
  have hmod : ((tokenBody p t).length + (tokenBody p t).length) % 2 = 0 := by
    omega
  rw [if_neg (by omega)]
  have hdiv : ((tokenBody p t).length + (tokenBody p t).length) / 2
      = (tokenBody p t).length := by omega
  rw [hdiv, List.take_left, List.drop_left]
  rw [if_neg (by simp)]
  have hb := tokenBody_length p t
  rw [if_neg (by omega)]
  rw [if_neg (by omega)]
  have hsublen : (tokenBody p t).length - 64 = (encodeStr p).length := by
    rw [hb, encodeStr_length]
    omega
  rw [hsublen]
  have htake : (tokenBody p t).take (encodeStr p).length = encodeStr p := by
    unfold tokenBody
    exact List.take_left _ _
  have hdrop : (tokenBody p t).drop (encodeStr p).length = natToBits 64 t := by
    unfold tokenBody
    exact List.drop_left _ _
  rw [htake, hdrop]
  have hchars : (encodeStr p).length / 32 = p.data.length := by
    rw [encodeStr_length]
    omega
  simp only [natOfBits_natToBits ht, hchars,
    show decodeChars p.data.length (encodeStr p) = p.data from
      decodeChars_encodeChars p.data,
    strMk_data]

theorem length_flipAt (i : Nat) (l : List Bool) :
    (flipAt i l).length = l.length := by
  induction l generalizing i with
  | nil => cases i <;> rfl
  | cons b bs ih =>
    cases i with
    | zero => rfl
    | succ j => simp [flipAt, ih]

theorem flipAt_append_left {i : Nat} {l1 l2 : List Bool}
    (h : i < l1.length) : flipAt i (l1 ++ l2) = flipAt i l1 ++ l2 := by
  induction l1 generalizing i with
  | nil => simp at h
  | cons b bs ih =>
    cases i with
    | zero => rfl
    | succ j =>
      have : j < bs.length := by simpa using h
      simp [flipAt, ih this]

theorem flipAt_append_right {i : Nat} {l1 l2 : List Bool}
    (h : l1.length ≤ i) :
    flipAt i (l1 ++ l2) = l1 ++ flipAt (i - l1.length) l2 := by
  induction l1 generalizing i with
  | nil => simp
  | cons b bs ih =>
    cases i with
    | zero => simp at h
    | succ j =>
      have : bs.length ≤ j := by simpa using h
      simp [flipAt, ih this]

theorem flipAt_ne {i : Nat} {l : List Bool} (h : i < l.length) :
    flipAt i l ≠ l := by
  induction l generalizing i with
  | nil => simp at h
  | cons b bs ih =>
    cases i with
    | zero =>
      simp only [flipAt, ne_eq, List.cons.injEq, not_and]
      intro hb
      exact absurd hb (by cases b <;> simp)
    | succ j =>
      have hj : j < bs.length := by simpa using h
      simp only [flipAt, ne_eq, List.cons.injEq, not_and]
      intro _
      exact ih hj

/-- Any single-bit mutation of an issued token is rejected as a bad
signature. -/
theorem loadsTok_flipAt (p : String) (t now i : Nat)
    (hi : i < (dumpsTok p t).length) :
    loadsTok (flipAt i (dumpsTok p t)) now = .error .badSignature := by
  unfold dumpsTok at hi ⊢
  rw [List.length_append] at hi
  by_cases hleft : i < (tokenBody p t).length
  · rw [flipAt_append_left hleft]
    unfold loadsTok
    have hlen : (flipAt i (tokenBody p t) ++ tokenBody p t).length
        = (tokenBody p t).length + (tokenBody p t).length := by
      rw [List.length_append, length_flipAt]
    rw [hlen, if_neg (by omega)]
    have hdiv : ((tokenBody p t).length + (tokenBody p t).length) / 2
        = (tokenBody p t).length := by omega
    have htake : (flipAt i (tokenBody p t) ++ tokenBody p t).take
        (tokenBody p t).length = flipAt i (tokenBody p t) := by
      rw [show (tokenBody p t).length = (flipAt i (tokenBody p t)).length from
        (length_flipAt i _).symm]
      exact List.take_left _ _
    have hdrop : (flipAt i (tokenBody p t) ++ tokenBody p t).drop
        (tokenBody p t).length = tokenBody p t := by
      rw [show (tokenBody p t).length = (flipAt i (tokenBody p t)).length from
        (length_flipAt i _).symm]
      exact List.drop_left _ _
    rw [hdiv, htake, hdrop, if_pos (flipAt_ne hleft)]
  · have hright : (tokenBody p t).length ≤ i := by omega
    rw [flipAt_append_right hright]
    unfold loadsTok
    have hi2 : i - (tokenBody p t).length < (tokenBody p t).length := by
      omega
    have hlen : (tokenBody p t ++ flipAt (i - (tokenBody p t).length)
        (tokenBody p t)).length
        = (tokenBody p t).length + (tokenBody p t).length := by
      rw [List.length_append, length_flipAt]
    rw [hlen, if_neg (by omega)]
    have hdiv : ((tokenBody p t).length + (tokenBody p t).length) / 2
        = (tokenBody p t).length := by omega
    rw [hdiv, List.take_left, List.drop_left]
    rw [if_pos (fun he => (flipAt_ne hi2) he.symm)]

/-- C5: a token issued at `t` validates at `now` exactly when
`now - t ≤ 3600` (and not before issuance), returning the signed payload;
outside the window it fails with the expiry error; and every single-bit
mutation of the token fails with the signature error. -/
theorem c5_token_validity (p : String) (t now : Nat) (ht : t < 2 ^ 64) :
    (loadsTok (dumpsTok p t) now = .ok p ↔ (t ≤ now ∧ now - t ≤ 3600)) ∧
    (¬ (t ≤ now ∧ now - t ≤ 3600) →
      loadsTok (dumpsTok p t) now = .error .expired) ∧
    (∀ i < (dumpsTok p t).length,
      loadsTok (flipAt i (dumpsTok p t)) now = .error .badSignature) := by
  refine ⟨⟨?_, ?_⟩, ?_, ?_⟩
  · intro hok
    by_contra hcon
    rw [loadsTok_dumpsTok p t now ht, if_neg hcon] at hok
    exact Except.noConfusion hok
  · intro hfresh
    rw [loadsTok_dumpsTok p t now ht, if_pos hfresh]
  · intro hstale
    rw [loadsTok_dumpsTok p t now ht, if_neg hstale]
  · intro i hi
    exact loadsTok_flipAt p t now i hi

/-- C5, witness: a concrete token at the edge of the window, plus a bit
flip. -/
theorem c5_witness :
    loadsTok (dumpsTok "a.jpg" 7) 3607 = .ok "a.jpg" ∧
    loadsTok (flipAt 0 (dumpsTok "a.jpg" 7)) 3607 = .error .badSignature :=
  ⟨(c5_token_validity "a.jpg" 7 3607 (by norm_num)).1.2 ⟨by omega, by omega⟩,
    (c5_token_validity "a.jpg" 7 3607 (by norm_num)).2.2 0 (by decide)⟩

/-! ## Claim C2: the path traversal check -/

/-- C2 (status: code bug).  `_get_secure_file_path` guards with the bare
string prefix test `full_path.startswith(os.path.abspath(base_dir))`,
without a trailing separator.  A signed payload `"../memesX/e.jpg"`
resolves to `/app/data/memesX/e.jpg` — outside the asset root
`/app/data/memes` — yet the prefix test passes and the handler returns the
escaped path instead of failing with the traversal error that the claim
(and the comment in the code itself) requires. -/
theorem c2_path_check_bug :
    getSecureFilePath ["/app/data/memesX/e.jpg"] 0
        (dumpsTok "../memesX/e.jpg" 0) MEME_DIR
      = .ok "/app/data/memesX/e.jpg" ∧
    specUnderRoot MEME_DIR "/app/data/memesX/e.jpg" = false :=
  ⟨by decide, by decide⟩

/-! ## Claim C10: tokens bind the filename, not the directory -/

/-- C10, counterexample.  The universally quantified claim fails for
payloads that resolve differently under the two roots: the signed payload
`"../memes/e.jpg"` serves the existing file `/app/data/memes/e.jpg`
through `GET /memes/{token}`, and under the thumbnails root the
identically named path resolves to that same existing file, yet
`GET /thumbnails/{token}` rejects the very same token as a traversal
attempt. -/
theorem c10_counterexample :
    serveMeme ["/app/data/memes/e.jpg"] 0 (dumpsTok "../memes/e.jpg" 0)
      = .ok "/app/data/memes/e.jpg" ∧
    serveThumbnail ["/app/data/memes/e.jpg"] 0 (dumpsTok "../memes/e.jpg" 0)
      = .error .traversal ∧
    String.mk (absPathC (joinPathC THUMBNAIL_DIR.data
        ("../memes/e.jpg" : String).data)) = "/app/data/memes/e.jpg" :=
  ⟨by decide, by decide, by decide⟩

theorem absPathC_join_plain {root fn : String}
    (hstack : (splitSep '/' root.data).foldl normFold [] ≠ [])
    (habs : absPathStr root = root)
    (hfn1 : fn.data ≠ []) (hfn2 : '/' ∉ fn.data)
    (hfn3 : fn.data ≠ ['.']) (hfn4 : fn.data ≠ ['.', '.']) :
    absPathC (joinPathC root.data fn.data) = root.data ++ '/' :: fn.data := by
  have hfree : ∀ c ∈ fn.data, c ≠ '/' := by
    intro c hc he
    rw [he] at hc
    exact hfn2 hc
  have hjoin : joinPathC root.data fn.data = root.data ++ '/' :: fn.data := by
    unfold joinPathC
    rw [if_neg]
    intro hh
    exact hfn2 (List.mem_of_mem_head? hh)
  rw [hjoin]
  unfold absPathC
  rw [splitSep_append, @splitSep_sepFree '/' fn.data hfree,
    List.foldl_append]
  have hfold : List.foldl normFold
      ((splitSep '/' root.data).foldl normFold []) [fn.data]
      = fn.data :: (splitSep '/' root.data).foldl normFold [] := by
    show normFold ((splitSep '/' root.data).foldl normFold []) fn.data = _
    unfold normFold
    rw [if_neg (by simp [hfn1, hfn3]), if_neg hfn4]
  rw [hfold, List.reverse_cons,
    joinSep_append_single _ _ _ (by simpa using hstack)]
  have habsd : absPathC root.data = root.data := congrArg String.data habs
  show ('/' :: joinSep '/' (((splitSep '/' root.data).foldl
      normFold []).reverse)) ++ '/' :: fn.data = root.data ++ '/' :: fn.data
  rw [show ('/' :: joinSep '/' (((splitSep '/' root.data).foldl
      normFold []).reverse)) = absPathC root.data from rfl, habsd]

theorem contains_iff_mem {l : List String} {s : String} :
    l.contains s = true ↔ s ∈ l := by
  simp [List.contains, List.elem_iff]

/-- Successful resolution of a plain asset name, for either root. -/
theorem getSecure_ok {fs : List String} {now t : Nat} {fn root : String}
    (hstack : (splitSep '/' root.data).foldl normFold [] ≠ [])
    (habs : absPathStr root = root)
    (hfn1 : fn.data ≠ []) (hfn2 : '/' ∉ fn.data)
    (hfn3 : fn.data ≠ ['.']) (hfn4 : fn.data ≠ ['.', '.'])
    (ht : t < 2 ^ 64) (hfresh : t ≤ now ∧ now - t ≤ 3600)
    (hmem : String.mk (root.data ++ '/' :: fn.data) ∈ fs) :
    getSecureFilePath fs now (dumpsTok fn t) root
      = .ok (String.mk (root.data ++ '/' :: fn.data)) := by
  have hloads : loadsTok (dumpsTok fn t) now = .ok fn := by
    rw [loadsTok_dumpsTok fn t now ht, if_pos hfresh]
  unfold getSecureFilePath
  simp only [hloads]
  rw [absPathC_join_plain hstack habs hfn1 hfn2 hfn3 hfn4]
  have hlead : ¬ ¬ (listLeads (absPathStr root).data
      (String.mk (root.data ++ '/' :: fn.data)).data = true) := by
    rw [habs]
    exact not_not_intro (listLeads_append root.data ('/' :: fn.data))
  rw [if_neg hlead]
  rw [if_neg (fun hc => hc (contains_iff_mem.2 hmem))]

/-- C10, amended: for every plain asset name (nonempty, without `/`, not a
dot component — in particular every name the system stores), a token
binds only that name: the same token validates on both endpoints and
serves the identically named file under whichever root the endpoint uses,
provided that file exists there. -/
theorem c10_token_root_amended (fs : List String) (now t : Nat)
    (fn : String)
    (hfn1 : fn.data ≠ []) (hfn2 : '/' ∉ fn.data)
    (hfn3 : fn.data ≠ ['.']) (hfn4 : fn.data ≠ ['.', '.'])
    (ht : t < 2 ^ 64) (hfresh : t ≤ now ∧ now - t ≤ 3600)
    (hm : String.mk (MEME_DIR.data ++ '/' :: fn.data) ∈ fs)
    (hth : String.mk (THUMBNAIL_DIR.data ++ '/' :: fn.data) ∈ fs) :
    serveMeme fs now (dumpsTok fn t)
      = .ok (String.mk (MEME_DIR.data ++ '/' :: fn.data)) ∧
    serveThumbnail fs now (dumpsTok fn t)
      = .ok (String.mk (THUMBNAIL_DIR.data ++ '/' :: fn.data)) :=
  ⟨getSecure_ok (by decide) (by decide) hfn1 hfn2 hfn3 hfn4 ht hfresh hm,
    getSecure_ok (by decide) (by decide) hfn1 hfn2 hfn3 hfn4 ht hfresh hth⟩

/-- C10 amended, witness: the name `"a.jpg"` present under both roots. -/
theorem c10_witness :
    serveMeme ["/app/data/memes/a.jpg", "/app/data/thumbnails/a.jpg"] 3600
        (dumpsTok "a.jpg" 0)
      = .ok "/app/data/memes/a.jpg" ∧
    serveThumbnail ["/app/data/memes/a.jpg", "/app/data/thumbnails/a.jpg"]
        3600 (dumpsTok "a.jpg" 0)
      = .ok "/app/data/thumbnails/a.jpg" := by
  have h := c10_token_root_amended
    ["/app/data/memes/a.jpg", "/app/data/thumbnails/a.jpg"] 3600 0 "a.jpg"
    (by decide) (by decide) (by decide) (by decide) (by norm_num)
    ⟨by omega, by omega⟩ (by decide) (by decide)
  exact ⟨by rw [h.1]; decide, by rw [h.2]; decide⟩

end MemeBot
